import Mathlib

/-!
Verification development for the re-ranking core of a two-stage graph
retrieval pipeline.  The definitions below are a shallow embedding of

  * `build_joint_graph` and `build_label_diff_dataset`
    (src/Graph_Retriever/train_re_ranker.py), and
  * `GraphTransformerEncoder.forward`
    (src/Siamese-Graphormer/network/encoder.py).

Modelling conventions:
  * Tensors are lists of rows; a 2-D feature tensor of shape (E, F) is a
    `List (List ℚ)` together with the explicit width `F` (needed to mirror
    `tensor.size(1)` / `size(-1)`, which is defined even when E = 0).
  * An edge-index tensor of shape (2, E) is a `List (ℕ × ℕ)` of its columns
    (source, target).
  * Real arithmetic is modelled exactly over `ℚ`; the IEEE non-finite
    results that numpy produces on division by zero are modelled by `FVal`
    (nan / +inf / -inf / finite value).
  * Fallible code returns `Except`.
-/

/-- A float-like scalar: numpy/torch float semantics restricted to what the
embedded code can produce — a finite (exact, rational) value, `nan`
(e.g. 0/0), or a signed infinity (e.g. 1/0). -/
inductive FVal where
  | nan : FVal
  | pinf : FVal
  | ninf : FVal
  | val : ℚ → FVal
deriving DecidableEq, Repr, Inhabited

/-- IEEE-style subtraction on `FVal` (used for `norm_labels[i] - norm_labels[j]`). -/
def fsub : FVal → FVal → FVal
  | .nan, _ => .nan
  | _, .nan => .nan
  | .pinf, .pinf => .nan
  | .pinf, _ => .pinf
  | .ninf, .ninf => .nan
  | .ninf, _ => .ninf
  | .val _, .pinf => .ninf
  | .val _, .ninf => .pinf
  | .val a, .val b => .val (a - b)

/-- A single (already feature-encoded) graph, as consumed by
`build_joint_graph` after `preprocess_graph`.

Modelled from the spec: `preprocess_graph` (utils/graph_utils.py, not under
src/) is the atom/edge feature-encoding step; per the spec it yields
well-formed numeric feature tensors and does not change the graph structure,
so it is modelled as the identity on already-encoded graphs.

`x` is the node-feature matrix (one row per node), `edge_index` the list of
directed edges, `edge_attr` the edge-feature matrix with explicit width
`f_edge` (the second dimension of the (E, f_edge) tensor). -/
structure Graph where
  x : List (List ℚ)
  edge_index : List (ℕ × ℕ)
  edge_attr : List (List ℚ)
  f_edge : ℕ
deriving DecidableEq, Repr, Inhabited

/-- The PyG `Data` object returned by `build_joint_graph`. -/
structure Data where
  x : List (List ℚ)
  edge_index : List (ℕ × ℕ)
  edge_attr : List (List ℚ)
  batch : List ℕ
  y : Option FVal
deriving DecidableEq, Repr, Inhabited

/-- Errors raised inside `build_joint_graph` / `build_label_diff_dataset`:
`shapeMismatch` is the `torch.cat` failure when the two edge-feature widths
differ (line 28); `indexError` is the `cross_edges.size(1)` failure on the
1-D empty cross-edge tensor produced when `N_q = 0` or `N_c = 0`
(lines 35/38). -/
inductive BuildErr where
  | shapeMismatch : BuildErr
  | indexError : BuildErr
deriving DecidableEq, Repr

/-- The cross (bridge) edge list of `build_joint_graph`, in the order the
Python nested loop appends them:
for `i in range(N_q)`, for `j in range(N_c)`: `[i, N_q+j]` then `[N_q+j, i]`. -/
def crossEdges (Nq Nc : ℕ) : List (ℕ × ℕ) :=
  (List.range Nq).flatMap fun i =>
    (List.range Nc).flatMap fun j => [(i, Nq + j), (Nq + j, i)]

/-- `build_joint_graph(q_data, c_data, label_diff)`
(src/Graph_Retriever/train_re_ranker.py lines 22-43).

Line-by-line: the two node-feature matrices are concatenated (A then B),
the candidate's edges are shifted by `+N_q`, the edge-feature matrices are
concatenated (this is where `torch.cat` fails if the widths differ), the
bridge edges are built by the nested loop, `torch.tensor(cross_edges).t()`
is taken, zero edge attributes of width `edge_attr.size(1)` are appended
for the bridge, the batch vector is all zeros, and `y` is the optional
label difference.  When the cross-edge list is empty (`N_q = 0` or
`N_c = 0`), `torch.tensor([])` is 1-D, so `cross_edges.size(1)` raises —
modelled by `.error .indexError`. -/
def build_joint_graph (q c : Graph) (label_diff : Option FVal) : Except BuildErr Data :=
  if q.f_edge ≠ c.f_edge then .error .shapeMismatch
  else
    let Nq := q.x.length
    let Nc := c.x.length
    let ce := crossEdges Nq Nc
    if ce.isEmpty then .error .indexError
    else
      .ok { x := q.x ++ c.x,
            edge_index :=
              (q.edge_index ++ c.edge_index.map fun p => (p.1 + Nq, p.2 + Nq)) ++ ce,
            edge_attr :=
              (q.edge_attr ++ c.edge_attr) ++
                List.replicate ce.length (List.replicate q.f_edge 0),
            batch := List.replicate (Nq + Nc) 0,
            y := label_diff }

/-- `np.min` over a label list (never applied to `[]` by the code paths the
claims exercise; the `[]` case is an arbitrary total-function default). -/
def listMin : List ℚ → ℚ
  | [] => 0
  | a :: l => l.foldl min a

/-- `np.max` over a label list (same remark as `listMin`). -/
def listMax : List ℚ → ℚ
  | [] => 0
  | a :: l => l.foldl max a

/-- One element of `norm_labels = 2 * (labels - min_label) / (max_label - min_label) - 1`
(train_re_ranker.py line 49), with numpy float division semantics: when the
denominator is zero the result is `nan` (0/0) or a signed infinity, and
`nonfinite - 1` stays nonfinite. -/
def normLabel (lo hi l : ℚ) : FVal :=
  if hi - lo = 0 then
    if 2 * (l - lo) = 0 then .nan
    else if 0 < 2 * (l - lo) then .pinf
    else .ninf
  else .val (2 * (l - lo) / (hi - lo) - 1)

/-- The full normalized label vector (computed once, before the sampling loop). -/
def normLabels (labels : List ℚ) : List FVal :=
  labels.map (normLabel (listMin labels) (listMax labels))

/-- The sampling loop of `build_label_diff_dataset` (lines 51-57):
`draws` is the sequence of index pairs produced by
`random.sample(range(len(graphs)), 2)` (the randomness oracle; `random.sample`
guarantees two distinct in-range indices).  Each iteration computes
`label_diff = norm_labels[i] - norm_labels[j]` and calls `build_joint_graph`;
an exception from the builder propagates and aborts the loop. -/
def build_pairs (graphs : List Graph) (norm : List FVal) :
    List (ℕ × ℕ) → Except BuildErr (List Data)
  | [] => .ok []
  | d :: rest =>
    match build_joint_graph (graphs.getD d.1 default) (graphs.getD d.2 default)
        (some (fsub (norm.getD d.1 .nan) (norm.getD d.2 .nan))) with
    | .error e => .error e
    | .ok g =>
      match build_pairs graphs norm rest with
      | .error e => .error e
      | .ok t => .ok (g :: t)

/-- `build_label_diff_dataset(graphs, labels, num_pairs)`
(train_re_ranker.py lines 46-57), with the random draws made explicit:
normalization constants are computed once over the whole label population,
then one joint graph is built per draw. -/
def build_label_diff_dataset (graphs : List Graph) (labels : List ℚ)
    (draws : List (ℕ × ℕ)) : Except BuildErr (List Data) :=
  build_pairs graphs (normLabels labels) draws

/-!  ## Graph Transformer Encoder (src/Siamese-Graphormer/network/encoder.py) -/

/-- The capability contract of `EdgeConditionedGraphAttention`
(network/edge_attention.py, not under src/).

Modelled from the spec: one attention layer is an arbitrary function of
(node features, edge index, edge attributes) to node features; its internal
design is out of core scope, only the input/output contract matters. -/
abbrev Layer := List (List ℚ) → List (ℕ × ℕ) → List (List ℚ) → List (List ℚ)

/-- Error raised inside `forward`: `batch.max()` on an empty tensor. -/
inductive EncErr where
  | emptyBatch : EncErr
deriving DecidableEq, Repr

/-- `batch.max().item()` for a nonempty batch vector of nonnegative ids. -/
def maxBatch (batch : List ℕ) : ℕ := batch.foldl max 0

/-- `virtual_index.repeat_interleave(batch.bincount())` (encoder.py line 33):
`virtual_index = arange(Nx, Nx + B)` and `bincount` has length `max+1 = B`,
so virtual-token id `Nx + k` is repeated once per node of instance `k`. -/
def repeatedVirtual (Nx : ℕ) (batch : List ℕ) : List ℕ :=
  (List.range (maxBatch batch + 1)).flatMap fun k =>
    List.replicate (batch.count k) (Nx + k)

/-- `torch.stack([repeated_virtual, all_nodes])` (line 35): the virtual-token
edge columns, pairing the repeated virtual ids positionally with
`all_nodes = arange(len(batch))`. -/
def virtualEdges (Nx : ℕ) (batch : List ℕ) : List (ℕ × ℕ) :=
  (repeatedVirtual Nx batch).zip (List.range batch.length)

/-- Lines 37-40: append the virtual-token edges, then append the reverse of
every edge currently present. -/
def augEdges (Nx : ℕ) (edge_index : List (ℕ × ℕ)) (batch : List ℕ) : List (ℕ × ℕ) :=
  (edge_index ++ virtualEdges Nx batch)
    ++ (edge_index ++ virtualEdges Nx batch).map Prod.swap

/-- Lines 42-45: zero edge attributes (width `edge_attr.size(-1) = w`) for the
`len(batch)` virtual-token edges, then the whole edge-attribute matrix is
duplicated for the reversed copies. -/
def augAttr (edge_attr : List (List ℚ)) (w : ℕ) (n : ℕ) : List (List ℚ) :=
  (edge_attr ++ List.replicate n (List.replicate w 0))
    ++ (edge_attr ++ List.replicate n (List.replicate w 0))

/-- The node-feature tensor after line 29: projected input features with
`batch_size` copies of the learned virtual token appended, then pushed
through the layer stack (lines 49-50).  `inProj` is `self.input_proj`
applied per row, `vtok` the learned `virtual_token` row. -/
def encoderLayersOut (inProj : List ℚ → List ℚ) (vtok : List ℚ) (layers : List Layer)
    (x : List (List ℚ)) (edge_index : List (ℕ × ℕ)) (edge_attr : List (List ℚ))
    (w : ℕ) (batch : List ℕ) : List (List ℚ) :=
  layers.foldl
    (fun h layer => layer h (augEdges x.length edge_index batch) (augAttr edge_attr w batch.length))
    (x.map inProj ++ List.replicate (maxBatch batch + 1) vtok)

/-- `GraphTransformerEncoder.forward(x, edge_index, edge_attr, batch)`
(encoder.py lines 21-52) for a 2-D `edge_attr` of width `w`.

`batch.max()` on an empty batch raises (`.error .emptyBatch`); otherwise
`batch_size = max + 1`, the graph is augmented (`augEdges` / `augAttr`), the
extended batch vector `batch ++ arange(batch_size)` is built (line 47; it is
not consumed by the layers), the layer stack runs, and the output projection
is applied to the last `batch_size` rows (`x[-batch_size:]`). -/
def forwardE (inProj : List ℚ → List ℚ) (vtok : List ℚ) (layers : List Layer)
    (outProj : List ℚ → List ℚ) (x : List (List ℚ)) (edge_index : List (ℕ × ℕ))
    (edge_attr : List (List ℚ)) (w : ℕ) (batch : List ℕ) :
    Except EncErr (List (List ℚ)) :=
  if batch.isEmpty then .error .emptyBatch
  else
    let B := maxBatch batch + 1
    let xf := encoderLayersOut inProj vtok layers x edge_index edge_attr w batch
    .ok ((xf.drop (xf.length - B)).map outProj)

/-!  ## Generic list lemmas -/

theorem length_flatMap_sum {α β : Type} (l : List α) (f : α → List β) :
    (l.flatMap f).length = (l.map fun a => (f a).length).sum := by
  induction l with
  | nil => simp
  | cons a t ih => simp [List.flatMap_cons, ih]

theorem length_flatMap_const {α β : Type} (l : List α) (f : α → List β) (c : ℕ)
    (h : ∀ a ∈ l, (f a).length = c) : (l.flatMap f).length = l.length * c := by
  induction l with
  | nil => simp
  | cons a t ih =>
    have ha : (f a).length = c := h a (by simp)
    have ht := ih fun b hb => h b (by simp [hb])
    simp [List.flatMap_cons, ha, ht, Nat.succ_mul, Nat.add_comm]

theorem count_flatMap {α β : Type} [BEq β] (l : List α) (f : α → List β) (b : β) :
    (l.flatMap f).count b = (l.map fun a => (f a).count b).sum := by
  induction l with
  | nil => simp
  | cons a t ih => simp [List.flatMap_cons, List.count_append, ih]

theorem sum_map_add_nat (l : List ℕ) (f g : ℕ → ℕ) :
    (l.map fun k => f k + g k).sum = (l.map f).sum + (l.map g).sum := by
  induction l with
  | nil => simp
  | cons a t ih => simp [ih]; omega

theorem sum_map_range_delta (B i : ℕ) (hi : i < B) (f : ℕ → ℕ)
    (h0 : ∀ j, j ≠ i → f j = 0) : ((List.range B).map f).sum = f i := by
  induction B with
  | zero => omega
  | succ n ih =>
    rw [List.range_succ, List.map_append, List.sum_append]
    simp only [List.map_cons, List.map_nil, List.sum_cons, List.sum_nil]
    rcases Nat.lt_or_ge i n with h | h
    · rw [ih h, h0 n (by omega)]
      omega
    · have hin : i = n := by omega
      subst hin
      have hz : ((List.range i).map f).sum = 0 := by
        apply List.sum_eq_zero
        intro x hx
        obtain ⟨j, hj, rfl⟩ := List.mem_map.1 hx
        exact h0 j (by simp at hj; omega)
      rw [hz]
      simp

theorem sum_range_count (B : ℕ) (l : List ℕ) (h : ∀ x ∈ l, x < B) :
    ((List.range B).map fun k => l.count k).sum = l.length := by
  induction l with
  | nil =>
    apply List.sum_eq_zero
    intro x hx
    obtain ⟨j, _, rfl⟩ := List.mem_map.1 hx
    simp
  | cons a t ih =>
    have ha : a < B := h a (by simp)
    have iht := ih fun x hx => h x (by simp [hx])
    have hcons : ((List.range B).map fun k => (a :: t).count k)
        = (List.range B).map fun k => t.count k + (if k = a then 1 else 0) := by
      apply List.map_congr_left
      intro k _
      rcases eq_or_ne a k with rfl | hne
      · simp [List.count_cons]
      · simp [List.count_cons, hne, Ne.symm hne]
    rw [hcons, sum_map_add_nat]
    rw [iht, sum_map_range_delta B a ha _ (fun j hj => by simp [hj])]
    simp

theorem le_foldl_max {α : Type} [LinearOrder α] (l : List α) (a : α) : a ≤ l.foldl max a := by
  induction l generalizing a with
  | nil => simp
  | cons b t ih => exact le_trans (le_max_left a b) (ih (max a b))

theorem mem_le_foldl_max {α : Type} [LinearOrder α] :
    ∀ (l : List α) (a x : α), x ∈ l → x ≤ l.foldl max a
  | b :: t, a, x, hx => by
    rcases List.mem_cons.1 hx with rfl | h
    · exact le_trans (le_max_right a x) (le_foldl_max t (max a x))
    · exact mem_le_foldl_max t (max a b) x h

theorem foldl_min_mem {α : Type} [LinearOrder α] :
    ∀ (l : List α) (a : α), l.foldl min a ∈ a :: l
  | [], _ => by simp
  | b :: t, a => by
    have h := foldl_min_mem t (min a b)
    rw [List.foldl_cons]
    rcases List.mem_cons.1 h with heq | ht
    · rw [heq]
      rcases min_choice a b with hm | hm <;> rw [hm]
      · exact List.mem_cons_self a _
      · exact List.mem_cons_of_mem a (List.mem_cons_self b t)
    · exact List.mem_cons_of_mem a (List.mem_cons_of_mem b ht)

theorem getD_mem {α : Type} (l : List α) (i : ℕ) (d : α) (h : i < l.length) :
    l.getD i d ∈ l := by
  rw [List.getD_eq_getElem?_getD, List.getElem?_eq_getElem h]
  simp

/-!  ## Structure of the bridge edge set -/

theorem crossEdges_length (Nq Nc : ℕ) : (crossEdges Nq Nc).length = 2 * (Nq * Nc) := by
  unfold crossEdges
  have inner : ∀ i : ℕ,
      ((List.range Nc).flatMap fun j => [(i, Nq + j), (Nq + j, i)]).length
        = (List.range Nc).length * 2 :=
    fun i => length_flatMap_const (List.range Nc)
      (fun j => [(i, Nq + j), (Nq + j, i)]) 2 (fun j _ => rfl)
  rw [length_flatMap_const (List.range Nq) _ ((List.range Nc).length * 2)
    (fun i _ => inner i)]
  simp only [List.length_range]
  ring

theorem crossEdges_zero (Nq Nc : ℕ) (h : Nq = 0 ∨ Nc = 0) : crossEdges Nq Nc = [] := by
  have := crossEdges_length Nq Nc
  rcases h with rfl | rfl <;>
    [skip; rw [Nat.mul_zero] at this] <;>
    · simp only [Nat.zero_mul, Nat.mul_zero] at this
      exact List.length_eq_zero.1 this

theorem crossEdges_isEmpty_false (Nq Nc : ℕ) (hq : 0 < Nq) (hc : 0 < Nc) :
    (crossEdges Nq Nc).isEmpty = false := by
  rw [List.isEmpty_eq_false]
  intro h
  have := crossEdges_length Nq Nc
  rw [h] at this
  simp at this
  omega

theorem count_pair {α : Type} [BEq α] [LawfulBEq α] [DecidableEq α] (a u v : α) :
    ([u, v] : List α).count a = (if a = u then 1 else 0) + (if a = v then 1 else 0) := by
  rcases eq_or_ne a u with rfl | h1 <;> rcases eq_or_ne a v with rfl | h2 <;>
    simp [List.count_cons, *]

theorem crossEdges_count_fwd (Nq Nc i j : ℕ) (hi : i < Nq) (hj : j < Nc) :
    (crossEdges Nq Nc).count (i, Nq + j) = 1 := by
  unfold crossEdges
  rw [count_flatMap]
  have inner : ∀ i' : ℕ,
      ((List.range Nc).flatMap fun j' => [(i', Nq + j'), (Nq + j', i')]).count (i, Nq + j)
        = if i' = i then 1 else 0 := by
    intro i'
    rw [count_flatMap]
    rcases eq_or_ne i' i with heq | hne
    · rw [heq, if_pos rfl]
      rw [sum_map_range_delta Nc j hj _ ?_]
      · rw [count_pair]
        have hY : ((i : ℕ), Nq + j) ≠ ((Nq + j : ℕ), i) := by
          intro h
          rw [Prod.mk.injEq] at h
          omega
        rw [if_pos rfl, if_neg hY]
      · intro j' hj'
        rw [count_pair]
        have h1 : ((i : ℕ), Nq + j) ≠ ((i : ℕ), Nq + j') := by
          intro h
          rw [Prod.mk.injEq] at h
          omega
        have h2 : ((i : ℕ), Nq + j) ≠ ((Nq + j' : ℕ), i) := by
          intro h
          rw [Prod.mk.injEq] at h
          omega
        rw [if_neg h1, if_neg h2]
    · rw [if_neg hne]
      apply List.sum_eq_zero
      intro x hx
      obtain ⟨j', _, rfl⟩ := List.mem_map.1 hx
      rw [count_pair]
      have h1 : ((i : ℕ), Nq + j) ≠ ((i' : ℕ), Nq + j') := by
        intro h
        rw [Prod.mk.injEq] at h
        omega
      have h2 : ((i : ℕ), Nq + j) ≠ ((Nq + j' : ℕ), i') := by
        intro h
        rw [Prod.mk.injEq] at h
        omega
      rw [if_neg h1, if_neg h2]
      rfl
  rw [List.map_congr_left fun i' _ => inner i',
    sum_map_range_delta Nq i hi _ (fun i' hi' => by simp [hi'])]
  simp

theorem crossEdges_count_bwd (Nq Nc i j : ℕ) (hi : i < Nq) (hj : j < Nc) :
    (crossEdges Nq Nc).count (Nq + j, i) = 1 := by
  unfold crossEdges
  rw [count_flatMap]
  have inner : ∀ i' : ℕ,
      ((List.range Nc).flatMap fun j' => [(i', Nq + j'), (Nq + j', i')]).count (Nq + j, i)
        = if i' = i then 1 else 0 := by
    intro i'
    rw [count_flatMap]
    rcases eq_or_ne i' i with heq | hne
    · rw [heq, if_pos rfl]
      rw [sum_map_range_delta Nc j hj _ ?_]
      · rw [count_pair]
        have hX : ((Nq + j : ℕ), i) ≠ ((i : ℕ), Nq + j) := by
          intro h
          rw [Prod.mk.injEq] at h
          omega
        rw [if_neg hX, if_pos rfl]
      · intro j' hj'
        rw [count_pair]
        have h1 : ((Nq + j : ℕ), i) ≠ ((i : ℕ), Nq + j') := by
          intro h
          rw [Prod.mk.injEq] at h
          omega
        have h2 : ((Nq + j : ℕ), i) ≠ ((Nq + j' : ℕ), i) := by
          intro h
          rw [Prod.mk.injEq] at h
          omega
        rw [if_neg h1, if_neg h2]
    · rw [if_neg hne]
      apply List.sum_eq_zero
      intro x hx
      obtain ⟨j', _, rfl⟩ := List.mem_map.1 hx
      rw [count_pair]
      have h1 : ((Nq + j : ℕ), i) ≠ ((i' : ℕ), Nq + j') := by
        intro h
        rw [Prod.mk.injEq] at h
        omega
      have h2 : ((Nq + j : ℕ), i) ≠ ((Nq + j' : ℕ), i') := by
        intro h
        rw [Prod.mk.injEq] at h
        omega
      rw [if_neg h1, if_neg h2]
      rfl
  rw [List.map_congr_left fun i' _ => inner i',
    sum_map_range_delta Nq i hi _ (fun i' hi' => by simp [hi'])]
  simp

theorem crossEdges_mem (Nq Nc : ℕ) (p : ℕ × ℕ) (hp : p ∈ crossEdges Nq Nc) :
    ∃ i j, i < Nq ∧ j < Nc ∧ (p = (i, Nq + j) ∨ p = (Nq + j, i)) := by
  unfold crossEdges at hp
  rw [List.mem_flatMap] at hp
  obtain ⟨i, hi, hp⟩ := hp
  rw [List.mem_flatMap] at hp
  obtain ⟨j, hj, hp⟩ := hp
  rw [List.mem_range] at hi hj
  rcases List.mem_cons.1 hp with h | h
  · exact ⟨i, j, hi, hj, Or.inl h⟩
  · rcases List.mem_cons.1 h with h2 | h2
    · exact ⟨i, j, hi, hj, Or.inr h2⟩
    · cases h2

/-!  ## Success case of the joint-graph builder -/

theorem build_joint_graph_ok (q c : Graph) (y : Option FVal)
    (hW : q.f_edge = c.f_edge) (hq : q.x ≠ []) (hc : c.x ≠ []) :
    build_joint_graph q c y =
      .ok { x := q.x ++ c.x,
            edge_index :=
              (q.edge_index ++ c.edge_index.map fun p => (p.1 + q.x.length, p.2 + q.x.length))
                ++ crossEdges q.x.length c.x.length,
            edge_attr :=
              (q.edge_attr ++ c.edge_attr) ++
                List.replicate (crossEdges q.x.length c.x.length).length
                  (List.replicate q.f_edge 0),
            batch := List.replicate (q.x.length + c.x.length) 0,
            y := y } := by
  unfold build_joint_graph
  rw [if_neg (by simp [hW])]
  rw [if_neg (by
    rw [crossEdges_isEmpty_false q.x.length c.x.length
      (List.length_pos.2 hq) (List.length_pos.2 hc)]
    simp)]

/-!  ## Label normalization -/

theorem foldl_all_eq {α : Type} (f : α → α → α) (l : List α) (a cst : α)
    (hf : f cst cst = cst) (ha : a = cst) (h : ∀ x ∈ l, x = cst) :
    l.foldl f a = cst := by
  induction l generalizing a with
  | nil => exact ha
  | cons b t ih =>
    rw [List.foldl_cons]
    exact ih (f a b) (by rw [ha, h b (by simp), hf]) (fun x hx => h x (by simp [hx]))

theorem listMin_all_eq (labels : List ℚ) (cst : ℚ) (hne : labels ≠ [])
    (h : ∀ x ∈ labels, x = cst) : listMin labels = cst := by
  match labels, hne with
  | a :: t, _ =>
    exact foldl_all_eq min t a cst (min_self cst) (h a (by simp))
      (fun x hx => h x (by simp [hx]))

theorem listMax_all_eq (labels : List ℚ) (cst : ℚ) (hne : labels ≠ [])
    (h : ∀ x ∈ labels, x = cst) : listMax labels = cst := by
  match labels, hne with
  | a :: t, _ =>
    exact foldl_all_eq max t a cst (max_self cst) (h a (by simp))
      (fun x hx => h x (by simp [hx]))

theorem normLabels_all_nan (labels : List ℚ) (cst : ℚ) (hne : labels ≠ [])
    (h : ∀ x ∈ labels, x = cst) :
    normLabels labels = List.replicate labels.length FVal.nan := by
  rw [List.eq_replicate_iff]
  refine ⟨by simp [normLabels], ?_⟩
  intro b hb
  obtain ⟨l, hl, rfl⟩ := List.mem_map.1 hb
  rw [listMin_all_eq labels cst hne h, listMax_all_eq labels cst hne h, h l hl]
  unfold normLabel
  rw [if_pos (by ring), if_pos (by ring)]

theorem listMin_mem (labels : List ℚ) (hne : labels ≠ []) : listMin labels ∈ labels := by
  match labels, hne with
  | a :: t, _ => exact foldl_min_mem t a

theorem mem_le_listMax (labels : List ℚ) (x : ℚ) (hx : x ∈ labels) : x ≤ listMax labels := by
  match labels, hx with
  | a :: t, hx =>
    rcases List.mem_cons.1 hx with rfl | h
    · exact le_foldl_max t x
    · exact mem_le_foldl_max t a x h

theorem listMin_le_listMax (labels : List ℚ) (hne : labels ≠ []) :
    listMin labels ≤ listMax labels :=
  mem_le_listMax labels _ (listMin_mem labels hne)

/-!  ## The pair-sampling loop -/

theorem build_pairs_ok (graphs : List Graph) (norm : List FVal) (W : ℕ)
    (hg : ∀ g ∈ graphs, g.x ≠ []) (hw : ∀ g ∈ graphs, g.f_edge = W) :
    ∀ draws : List (ℕ × ℕ),
      (∀ p ∈ draws, p.1 < graphs.length ∧ p.2 < graphs.length) →
      ∃ out, build_pairs graphs norm draws = .ok out
        ∧ out.length = draws.length
        ∧ ∀ m, m < draws.length →
            (out[m]?).map Data.y =
              some (some (fsub (norm.getD (draws.getD m (0, 0)).1 .nan)
                               (norm.getD (draws.getD m (0, 0)).2 .nan)))
  | [], _ => ⟨[], rfl, rfl, fun m hm => absurd hm (Nat.not_lt_zero m)⟩
  | d :: rest, hdraws => by
    have hd := hdraws d (by simp)
    have hq : graphs.getD d.1 default ∈ graphs := getD_mem _ _ _ hd.1
    have hc : graphs.getD d.2 default ∈ graphs := getD_mem _ _ _ hd.2
    have hWd : (graphs.getD d.1 default).f_edge = (graphs.getD d.2 default).f_edge := by
      rw [hw _ hq, hw _ hc]
    have hb := build_joint_graph_ok (graphs.getD d.1 default) (graphs.getD d.2 default)
      (some (fsub (norm.getD d.1 .nan) (norm.getD d.2 .nan))) hWd (hg _ hq) (hg _ hc)
    obtain ⟨g, hbg, hgy⟩ : ∃ g, build_joint_graph (graphs.getD d.1 default)
          (graphs.getD d.2 default)
          (some (fsub (norm.getD d.1 .nan) (norm.getD d.2 .nan))) = .ok g
        ∧ g.y = some (fsub (norm.getD d.1 .nan) (norm.getD d.2 .nan)) := ⟨_, hb, rfl⟩
    obtain ⟨t, ht, hlen, hy⟩ :=
      build_pairs_ok graphs norm W hg hw rest (fun p hp => hdraws p (by simp [hp]))
    refine ⟨g :: t, ?_, ?_, ?_⟩
    · rw [build_pairs, hbg, ht]
    · simp [hlen]
    · intro m hm
      match m with
      | 0 => simp [hgy]
      | Nat.succ k =>
        have := hy k (by simpa using hm)
        simpa using this

/-!  ## Structure of the augmented (virtual-token) graph -/

theorem counting_sort_sorted (B : ℕ) (c : ℕ → ℕ) :
    List.Sorted (· ≤ ·) ((List.range B).flatMap fun k => List.replicate (c k) k) := by
  induction B with
  | zero => simp
  | succ n ih =>
    rw [List.range_succ, List.flatMap_append]
    refine List.pairwise_append.2 ⟨ih, ?_, ?_⟩
    · simp [List.pairwise_replicate]
    · intro a ha b hb
      rw [List.mem_flatMap] at ha
      obtain ⟨k, hk, ha⟩ := ha
      rw [List.eq_of_mem_replicate ha]
      simp only [List.flatMap_cons, List.flatMap_nil, List.append_nil] at hb
      rw [List.eq_of_mem_replicate hb]
      rw [List.mem_range] at hk
      omega

theorem counting_sort_perm (B : ℕ) (l : List ℕ) (hB : ∀ x ∈ l, x < B) :
    ((List.range B).flatMap fun k => List.replicate (l.count k) k).Perm l := by
  rw [List.perm_iff_count]
  intro a
  rcases Nat.lt_or_ge a B with ha | ha
  · rw [count_flatMap]
    rw [sum_map_range_delta B a ha _ (fun j hj => by
      rw [List.count_replicate]
      simp [hj, Ne.symm hj])]
    simp
  · rw [List.count_eq_zero.2, List.count_eq_zero.2]
    · intro hmem
      exact absurd (hB a hmem) (by omega)
    · intro hmem
      rw [List.mem_flatMap] at hmem
      obtain ⟨k, hk, hmem⟩ := hmem
      rw [List.mem_range] at hk
      rw [List.eq_of_mem_replicate hmem] at ha
      omega

theorem counting_sort (B : ℕ) (l : List ℕ) (hB : ∀ x ∈ l, x < B)
    (hs : List.Sorted (· ≤ ·) l) :
    ((List.range B).flatMap fun k => List.replicate (l.count k) k) = l :=
  List.eq_of_perm_of_sorted (counting_sort_perm B l hB) (counting_sort_sorted B _) hs

theorem mem_lt_maxBatch_succ (batch : List ℕ) (x : ℕ) (hx : x ∈ batch) :
    x < maxBatch batch + 1 :=
  Nat.lt_succ_of_le (mem_le_foldl_max batch 0 x hx)

theorem repeatedVirtual_sorted (Nx : ℕ) (batch : List ℕ)
    (hs : List.Sorted (· ≤ ·) batch) :
    repeatedVirtual Nx batch = batch.map (Nx + ·) := by
  unfold repeatedVirtual
  have hcast : (fun k => List.replicate (batch.count k) (Nx + k))
      = fun k => (List.replicate (batch.count k) k).map (Nx + ·) := by
    funext k
    rw [List.map_replicate]
  rw [hcast, ← List.map_flatMap,
    counting_sort (maxBatch batch + 1) batch (mem_lt_maxBatch_succ batch) hs]

theorem repeatedVirtual_length (Nx : ℕ) (batch : List ℕ) :
    (repeatedVirtual Nx batch).length = batch.length := by
  unfold repeatedVirtual
  rw [length_flatMap_sum]
  have hcast : ((List.range (maxBatch batch + 1)).map fun k =>
        (List.replicate (batch.count k) (Nx + k)).length)
      = (List.range (maxBatch batch + 1)).map fun k => batch.count k := by
    apply List.map_congr_left
    intro k _
    rw [List.length_replicate]
  rw [hcast, sum_range_count _ batch (mem_lt_maxBatch_succ batch)]

theorem virtualEdges_length (Nx : ℕ) (batch : List ℕ) :
    (virtualEdges Nx batch).length = batch.length := by
  unfold virtualEdges
  rw [List.length_zip, repeatedVirtual_length, List.length_range, Nat.min_self]

theorem virtualEdges_getElem (Nx : ℕ) (batch : List ℕ)
    (hs : List.Sorted (· ≤ ·) batch) (n : ℕ) (hn : n < batch.length) :
    (virtualEdges Nx batch)[n]? = some (Nx + batch[n], n) := by
  unfold virtualEdges
  rw [repeatedVirtual_sorted Nx batch hs]
  rw [List.getElem?_zip_eq_some]
  constructor
  · rw [List.getElem?_map, List.getElem?_eq_getElem hn]
    rfl
  · exact List.getElem?_range hn

theorem augEdges_length (Nx : ℕ) (ei : List (ℕ × ℕ)) (batch : List ℕ) :
    (augEdges Nx ei batch).length = 2 * (ei.length + batch.length) := by
  unfold augEdges
  rw [List.length_append, List.length_map, List.length_append, virtualEdges_length]
  omega

theorem augAttr_length (ea : List (List ℚ)) (w n : ℕ) :
    (augAttr ea w n).length = 2 * (ea.length + n) := by
  unfold augAttr
  rw [List.length_append, List.length_append, List.length_replicate]
  omega

theorem augEdges_swap_mem (Nx : ℕ) (ei : List (ℕ × ℕ)) (batch : List ℕ)
    (p : ℕ × ℕ) (hp : p ∈ augEdges Nx ei batch) :
    p.swap ∈ augEdges Nx ei batch := by
  unfold augEdges at hp ⊢
  rcases List.mem_append.1 hp with h | h
  · exact List.mem_append.2 (Or.inr (List.mem_map.2 ⟨p, h, rfl⟩))
  · obtain ⟨q, hq, rfl⟩ := List.mem_map.1 h
    rw [Prod.swap_swap]
    exact List.mem_append.2 (Or.inl hq)

theorem foldl_layers_length (layers : List Layer) (E : List (ℕ × ℕ)) (A : List (List ℚ))
    (hl : ∀ f ∈ layers, ∀ h e a, (f h e a).length = h.length) :
    ∀ init : List (List ℚ), (layers.foldl (fun h f => f h E A) init).length = init.length := by
  induction layers with
  | nil => intro init; rfl
  | cons f t ih =>
    intro init
    rw [List.foldl_cons, ih (fun g hg => hl g (by simp [hg])) (f init E A),
      hl f (by simp) init E A]

theorem encoderLayersOut_length (inProj : List ℚ → List ℚ) (vtok : List ℚ)
    (layers : List Layer) (x : List (List ℚ)) (ei : List (ℕ × ℕ)) (ea : List (List ℚ))
    (w : ℕ) (batch : List ℕ)
    (hl : ∀ f ∈ layers, ∀ h e a, (f h e a).length = h.length) :
    (encoderLayersOut inProj vtok layers x ei ea w batch).length
      = x.length + (maxBatch batch + 1) := by
  unfold encoderLayersOut
  rw [foldl_layers_length layers _ _ hl, List.length_append, List.length_map,
    List.length_replicate]

theorem forwardE_eq (inProj : List ℚ → List ℚ) (vtok : List ℚ) (layers : List Layer)
    (outProj : List ℚ → List ℚ) (x : List (List ℚ)) (ei : List (ℕ × ℕ))
    (ea : List (List ℚ)) (w : ℕ) (batch : List ℕ) (hne : batch ≠ []) :
    forwardE inProj vtok layers outProj x ei ea w batch
      = .ok (((encoderLayersOut inProj vtok layers x ei ea w batch).drop
          ((encoderLayersOut inProj vtok layers x ei ea w batch).length
            - (maxBatch batch + 1))).map outProj) := by
  unfold forwardE
  rw [if_neg (by simp [hne])]

theorem forwardE_ok_of_layers (inProj : List ℚ → List ℚ) (vtok : List ℚ)
    (layers : List Layer) (outProj : List ℚ → List ℚ) (x : List (List ℚ))
    (ei : List (ℕ × ℕ)) (ea : List (List ℚ)) (w : ℕ) (batch : List ℕ)
    (hne : batch ≠ [])
    (hl : ∀ f ∈ layers, ∀ h e a, (f h e a).length = h.length) :
    forwardE inProj vtok layers outProj x ei ea w batch
      = .ok (((encoderLayersOut inProj vtok layers x ei ea w batch).drop x.length).map
          outProj) := by
  rw [forwardE_eq inProj vtok layers outProj x ei ea w batch hne,
    encoderLayersOut_length inProj vtok layers x ei ea w batch hl,
    Nat.add_sub_cancel]

theorem forwardE_out_length (inProj : List ℚ → List ℚ) (vtok : List ℚ)
    (layers : List Layer) (outProj : List ℚ → List ℚ) (x : List (List ℚ))
    (ei : List (ℕ × ℕ)) (ea : List (List ℚ)) (w : ℕ) (batch : List ℕ)
    (hl : ∀ f ∈ layers, ∀ h e a, (f h e a).length = h.length) :
    (((encoderLayersOut inProj vtok layers x ei ea w batch).drop x.length).map
        outProj).length = maxBatch batch + 1 := by
  rw [List.length_map, List.length_drop,
    encoderLayersOut_length inProj vtok layers x ei ea w batch hl]
  omega

theorem batch_toFinset_card (batch : List ℕ)
    (hdense : ∀ k, k < maxBatch batch + 1 → k ∈ batch) :
    batch.toFinset.card = maxBatch batch + 1 := by
  have hset : batch.toFinset = Finset.range (maxBatch batch + 1) := by
    ext k
    simp only [List.mem_toFinset, Finset.mem_range]
    exact ⟨fun h => mem_lt_maxBatch_succ batch k h, fun h => hdense k h⟩
  rw [hset, Finset.card_range]

/-!  ## Claim theorems -/

/-- C1 (amended): for all NON-EMPTY graphs A and B whose edge-feature widths
match, `build_joint_graph(A, B)` returns a graph whose node-feature matrix is
A's rows followed by B's (hence N_a + N_b nodes), whose edge list is A's
edges, then B's edges shifted by +N_a, then the bridge edges — in total
|A.edges| + |B.edges| + 2·N_a·N_b edges — and whose batch assignment is the
all-zero vector of length N_a + N_b. -/
theorem spec_c1 (q c : Graph) (y : Option FVal) (hq : q.x ≠ []) (hc : c.x ≠ [])
    (hW : q.f_edge = c.f_edge) :
    build_joint_graph q c y =
      .ok { x := q.x ++ c.x,
            edge_index :=
              (q.edge_index ++ c.edge_index.map fun p =>
                (p.1 + q.x.length, p.2 + q.x.length)) ++ crossEdges q.x.length c.x.length,
            edge_attr :=
              (q.edge_attr ++ c.edge_attr) ++
                List.replicate (crossEdges q.x.length c.x.length).length
                  (List.replicate q.f_edge 0),
            batch := List.replicate (q.x.length + c.x.length) 0,
            y := y }
    ∧ (q.x ++ c.x).length = q.x.length + c.x.length
    ∧ ((q.edge_index ++ c.edge_index.map fun p =>
          (p.1 + q.x.length, p.2 + q.x.length)) ++ crossEdges q.x.length c.x.length).length
        = q.edge_index.length + c.edge_index.length + 2 * (q.x.length * c.x.length) := by
  refine ⟨build_joint_graph_ok q c y hW hq hc, by rw [List.length_append], ?_⟩
  rw [List.length_append, List.length_append, List.length_map, crossEdges_length]

/-- C1 witness: the spec's concrete scenario — A with 2 nodes, B with 3
nodes, no original edges, edge-feature width 1 — yields 0 + 0 + 2·(2·3) = 12
edges. -/
theorem spec_c1_witness :
    ((([] : List (ℕ × ℕ)) ++ ([] : List (ℕ × ℕ)).map fun p : ℕ × ℕ => (p.1 + 2, p.2 + 2))
        ++ crossEdges 2 3).length = 0 + 0 + 2 * (2 * 3) :=
  (spec_c1 ⟨[[1], [2]], [], [], 1⟩ ⟨[[3], [4], [5]], [], [], 1⟩ none
    (by simp) (by simp) rfl).2.2

/-- C1 counterexample: with A empty (N_a = 0) and matching edge-feature
widths, `build_joint_graph` raises (the 1-D empty cross-edge tensor has no
`size(1)`) instead of returning a graph, so the claim fails as stated for
empty graphs. -/
theorem spec_c1_counterexample :
    build_joint_graph ⟨[], [], [], 1⟩ ⟨[[1]], [], [], 1⟩ none = .error .indexError
      ∧ (Graph.mk [] [] [] 1).f_edge = (Graph.mk [[1]] [] [] 1).f_edge :=
  ⟨rfl, rfl⟩

/-- C6 (amended): when N_a = 0 or N_b = 0 the bridge edge list is empty, and
`build_joint_graph` does NOT succeed: `torch.tensor([])` is 1-D, so
`cross_edges.size(1)` raises an IndexError (with matching edge-feature
widths, the only failure hit is this one). -/
theorem spec_c6 (q c : Graph) (y : Option FVal) (h : q.x = [] ∨ c.x = [])
    (hW : q.f_edge = c.f_edge) :
    crossEdges q.x.length c.x.length = []
      ∧ build_joint_graph q c y = .error .indexError := by
  have hce : crossEdges q.x.length c.x.length = [] := by
    apply crossEdges_zero
    rcases h with h | h
    · exact Or.inl (by rw [h]; rfl)
    · exact Or.inr (by rw [h]; rfl)
  refine ⟨hce, ?_⟩
  unfold build_joint_graph
  rw [if_neg (by simp [hW]), if_pos (by rw [hce]; rfl)]

/-- C6 witness: a one-node graph fused with an empty graph (widths equal):
the bridge list is empty and the builder raises. -/
theorem spec_c6_witness :
    crossEdges 1 0 = []
      ∧ build_joint_graph ⟨[[2]], [], [], 2⟩ ⟨[], [], [], 2⟩ none = .error .indexError :=
  spec_c6 ⟨[[2]], [], [], 2⟩ ⟨[], [], [], 2⟩ none (Or.inr rfl) rfl

/-- C6 counterexample: two empty graphs with equal widths — the claim says
the build must succeed without error, but it raises. -/
theorem spec_c6_counterexample :
    build_joint_graph ⟨[], [], [], 3⟩ ⟨[], [], [], 3⟩ none = .error .indexError :=
  rfl

/-- C3: for non-empty A and B (with the common edge-feature width the claim
presupposes), the bridge edges of `build_joint_graph` are exactly the
complete bipartite set in both directions — (i, N_a+j) and (N_a+j, i) each
appear exactly once for i < N_a, j < N_b, and nothing else — and the
bridge edge-attribute rows are all-zero rows of the source width. -/
theorem spec_c3 (q c : Graph) (y : Option FVal) (hq : q.x ≠ []) (hc : c.x ≠ [])
    (hW : q.f_edge = c.f_edge) :
    build_joint_graph q c y =
      .ok { x := q.x ++ c.x,
            edge_index :=
              (q.edge_index ++ c.edge_index.map fun p =>
                (p.1 + q.x.length, p.2 + q.x.length)) ++ crossEdges q.x.length c.x.length,
            edge_attr :=
              (q.edge_attr ++ c.edge_attr) ++
                List.replicate (crossEdges q.x.length c.x.length).length
                  (List.replicate q.f_edge 0),
            batch := List.replicate (q.x.length + c.x.length) 0,
            y := y }
    ∧ (∀ i j, i < q.x.length → j < c.x.length →
        (crossEdges q.x.length c.x.length).count (i, q.x.length + j) = 1
          ∧ (crossEdges q.x.length c.x.length).count (q.x.length + j, i) = 1)
    ∧ (∀ p ∈ crossEdges q.x.length c.x.length,
        ∃ i j, i < q.x.length ∧ j < c.x.length
          ∧ (p = (i, q.x.length + j) ∨ p = (q.x.length + j, i))) := by
  refine ⟨build_joint_graph_ok q c y hW hq hc, ?_, ?_⟩
  · intro i j hi hj
    exact ⟨crossEdges_count_fwd _ _ i j hi hj, crossEdges_count_bwd _ _ i j hi hj⟩
  · intro p hp
    exact crossEdges_mem _ _ p hp

/-- C3 witness: in the 2-node/3-node scenario, the bridge edge (0, 2) and its
reverse (2, 0) each occur exactly once. -/
theorem spec_c3_witness :
    (crossEdges 2 3).count (0, 2 + 0) = 1 ∧ (crossEdges 2 3).count (2 + 0, 0) = 1 :=
  (spec_c3 ⟨[[1], [2]], [], [], 1⟩ ⟨[[3], [4], [5]], [], [], 1⟩ none
    (by simp) (by simp) rfl).2.1 0 0 (by decide) (by decide)

/-- C2 (amended): in the encoder's edge augmentation, PROVIDED the batch
vector is non-decreasing (nodes grouped by instance id, as the PyG collator
produces), every real node n receives the edge
(virtual_token[batch[n]] → n); and — unconditionally — the augmented edge
set is bidirectional: the reverse of every present directed edge is present. -/
theorem spec_c2 (Nx : ℕ) (ei : List (ℕ × ℕ)) (batch : List ℕ) :
    (List.Sorted (· ≤ ·) batch →
      ∀ n (hn : n < batch.length), (Nx + batch[n], n) ∈ augEdges Nx ei batch)
    ∧ (∀ p ∈ augEdges Nx ei batch, p.swap ∈ augEdges Nx ei batch) := by
  constructor
  · intro hs n hn
    have h := virtualEdges_getElem Nx batch hs n hn
    have hmem : (Nx + batch[n], n) ∈ virtualEdges Nx batch :=
      List.mem_iff_getElem?.2 ⟨n, h⟩
    unfold augEdges
    exact List.mem_append.2 (Or.inl (List.mem_append.2 (Or.inr hmem)))
  · exact augEdges_swap_mem Nx ei batch

/-- C2 witness: with the sorted batch [0, 1] over two real nodes (ids 0, 1)
and one original edge (0, 1), node 0's virtual-token edge (2 + 0 → 0) is
present, and the reverse (1, 0) of the original edge (0, 1) is present. -/
theorem spec_c2_witness :
    ((2 + 0, 0) ∈ augEdges 2 [(0, 1)] [0, 1])
      ∧ ((1, 0) ∈ augEdges 2 [(0, 1)] [0, 1]) := by
  constructor
  · exact (spec_c2 2 [(0, 1)] [0, 1]).1 (by decide) 0 (by decide)
  · exact (spec_c2 2 [(0, 1)] [0, 1]).2 (0, 1) (by decide)

/-- C2 counterexample: the batch [1, 0] is a dense 0..1 range but unsorted;
node 0 belongs to instance 1, whose virtual token is node 2 + 1 = 3, yet the
edge (3, 0) is NOT in the augmented edge set (node 0 is wired to instance 0's
token instead), so the claim fails as stated. -/
theorem spec_c2_counterexample :
    ¬ ((2 + 1, 0) ∈ augEdges 2 [] [1, 0]) ∧ (0 : ℕ) ∈ [1, 0] ∧ (1 : ℕ) ∈ [1, 0] := by
  refine ⟨by decide, by decide, by decide⟩

/-- C4: for a nonempty batch that is a dense 0..B-1 range (B = max + 1) and
layers satisfying the §4.3 contract (one output row per input row — the
attention layer itself is repository code outside src/, modelled from the
spec), `forward` succeeds and returns exactly B rows — as many as there are
distinct instance ids — and row k is `output_proj` of the final
representation of row N + k, instance k's virtual token (B = 1 for a single
Joint Graph, whose batch is constant zero). -/
theorem spec_c4 (inProj outProj : List ℚ → List ℚ) (vtok : List ℚ) (layers : List Layer)
    (x : List (List ℚ)) (ei : List (ℕ × ℕ)) (ea : List (List ℚ)) (w : ℕ)
    (batch : List ℕ) (hne : batch ≠ [])
    (hdense : ∀ k, k < maxBatch batch + 1 → k ∈ batch)
    (hl : ∀ f ∈ layers, ∀ h e a, (f h e a).length = h.length) :
    forwardE inProj vtok layers outProj x ei ea w batch
      = .ok (((encoderLayersOut inProj vtok layers x ei ea w batch).drop x.length).map
          outProj)
    ∧ (((encoderLayersOut inProj vtok layers x ei ea w batch).drop x.length).map
        outProj).length = maxBatch batch + 1
    ∧ batch.toFinset.card = maxBatch batch + 1
    ∧ ∀ k, k < maxBatch batch + 1 →
        (((encoderLayersOut inProj vtok layers x ei ea w batch).drop x.length).map
            outProj)[k]?
          = ((encoderLayersOut inProj vtok layers x ei ea w batch)[x.length + k]?).map
              outProj := by
  refine ⟨forwardE_ok_of_layers inProj vtok layers outProj x ei ea w batch hne hl,
    forwardE_out_length inProj vtok layers outProj x ei ea w batch hl,
    batch_toFinset_card batch hdense, ?_⟩
  intro k _
  rw [List.getElem?_map, List.getElem?_drop]

/-- C4 witness: a single-instance batch [0] (one joint graph) with no layers:
the output has exactly 1 = max+1 row, one per distinct instance. -/
theorem spec_c4_witness :
    (([0] : List ℕ).toFinset.card = maxBatch [0] + 1)
      ∧ (((encoderLayersOut (fun v => v) [5] ([] : List Layer) [[1]] [] [] 1 [0]).drop
          1).map (fun v => v)).length = maxBatch [0] + 1 := by
  have h := spec_c4 (fun v => v) (fun v => v) [5] [] [[1]] [] [] 1 [0]
    (by simp) (by decide) (by simp)
  exact ⟨h.2.2.1, h.2.1⟩

/-- C5 (amended): an instance with zero real nodes is NOT detected by the
encoder: `bincount` simply reports 0 for the missing id and
`repeat_interleave` skips it, so for any nonempty batch with a gap (some
k < max(batch) not occurring in batch) `forward` still succeeds and returns
max + 1 rows; no EmptyInstance error exists in the code (only an entirely
empty batch fails, at `batch.max()`). -/
theorem spec_c5 (inProj outProj : List ℚ → List ℚ) (vtok : List ℚ) (layers : List Layer)
    (x : List (List ℚ)) (ei : List (ℕ × ℕ)) (ea : List (List ℚ)) (w : ℕ)
    (batch : List ℕ) (k : ℕ) (hne : batch ≠ [])
    (hl : ∀ f ∈ layers, ∀ h e a, (f h e a).length = h.length)
    (hk : k < maxBatch batch) (hmiss : ¬ k ∈ batch) :
    forwardE inProj vtok layers outProj x ei ea w batch
      = .ok (((encoderLayersOut inProj vtok layers x ei ea w batch).drop x.length).map
          outProj)
    ∧ (((encoderLayersOut inProj vtok layers x ei ea w batch).drop x.length).map
        outProj).length = maxBatch batch + 1 :=
  ⟨forwardE_ok_of_layers inProj vtok layers outProj x ei ea w batch hne hl,
    forwardE_out_length inProj vtok layers outProj x ei ea w batch hl⟩

/-- C5 witness: batch [0, 0, 2] has an empty instance 1, yet `forward`
succeeds and returns max + 1 = 3 rows. -/
theorem spec_c5_witness :
    forwardE (fun v => v) [5] ([] : List Layer) (fun v => v) [[1], [1], [1]] [] [] 1
        [0, 0, 2]
      = .ok (((encoderLayersOut (fun v => v) [5] ([] : List Layer) [[1], [1], [1]] [] []
          1 [0, 0, 2]).drop 3).map (fun v => v))
    ∧ (((encoderLayersOut (fun v => v) [5] ([] : List Layer) [[1], [1], [1]] [] [] 1
        [0, 0, 2]).drop 3).map (fun v => v)).length = maxBatch [0, 0, 2] + 1 :=
  spec_c5 (fun v => v) (fun v => v) [5] [] [[1], [1], [1]] [] [] 1 [0, 0, 2] 1
    (by simp) (by simp) (by decide) (by decide)

/-- C5 counterexample: with batch [0, 0, 2] — instance 1 has zero real
nodes — `forward` does NOT fail: it returns output (the three virtual-token
rows, here [5] each), refuting the claimed EmptyInstance failure. -/
theorem spec_c5_counterexample :
    forwardE (fun v => v) [5] ([] : List Layer) (fun v => v) [[1], [1], [1]] [] [] 1
        [0, 0, 2] = .ok [[5], [5], [5]]
      ∧ 1 < maxBatch [0, 0, 2] ∧ ¬ (1 : ℕ) ∈ [0, 0, 2] :=
  ⟨rfl, by decide, by decide⟩

/-- C10: after edge augmentation (with the Graph invariant that the input
edge-attribute matrix has one row per edge-index column), the edge-attribute
matrix has exactly one row per edge-index column — 2·(E + N) rows for E
input edges and N real nodes — the rows at the virtual-token-edge positions
are all-zero rows of the input width, and the reversed copy of every edge
carries the identical attribute row (and the reversed edge itself). -/
theorem spec_c10 (Nx : ℕ) (ei : List (ℕ × ℕ)) (ea : List (List ℚ)) (w : ℕ)
    (batch : List ℕ) (hE : ea.length = ei.length) :
    (augAttr ea w batch.length).length = 2 * (ei.length + batch.length)
    ∧ (augAttr ea w batch.length).length = (augEdges Nx ei batch).length
    ∧ (∀ m, m < batch.length →
        (augAttr ea w batch.length)[ei.length + m]? = some (List.replicate w 0))
    ∧ (∀ i, i < ei.length + batch.length →
        (augAttr ea w batch.length)[ei.length + batch.length + i]?
            = (augAttr ea w batch.length)[i]?
          ∧ (augEdges Nx ei batch)[ei.length + batch.length + i]?
            = ((augEdges Nx ei batch)[i]?).map Prod.swap) := by
  have hlen1 : (ea ++ List.replicate batch.length (List.replicate w 0)).length
      = ei.length + batch.length := by
    rw [List.length_append, List.length_replicate, hE]
  have hlen2 : (ei ++ virtualEdges Nx batch).length = ei.length + batch.length := by
    rw [List.length_append, virtualEdges_length]
  refine ⟨?_, ?_, ?_, ?_⟩
  · rw [augAttr_length, hE]
  · rw [augAttr_length, augEdges_length, hE]
  · intro m hm
    unfold augAttr
    rw [List.getElem?_append_left (by rw [hlen1]; omega)]
    rw [List.getElem?_append_right (by omega)]
    have hidx : ei.length + m - ea.length = m := by omega
    rw [hidx, List.getElem?_replicate_of_lt hm]
  · intro i hi
    constructor
    · unfold augAttr
      have hi1 : i < (ea ++ List.replicate batch.length (List.replicate w 0)).length := by
        rw [hlen1]
        omega
      have hidx : ei.length + batch.length + i
          - (ea ++ List.replicate batch.length (List.replicate w 0)).length = i := by
        rw [hlen1]
        omega
      conv_rhs => rw [List.getElem?_append_left hi1]
      rw [List.getElem?_append_right (by rw [hlen1]; omega), hidx]
    · unfold augEdges
      have hi2 : i < (ei ++ virtualEdges Nx batch).length := by
        rw [hlen2]
        omega
      have hidx : ei.length + batch.length + i - (ei ++ virtualEdges Nx batch).length
          = i := by
        rw [hlen2]
        omega
      conv_rhs => rw [List.getElem?_append_left hi2]
      rw [List.getElem?_append_right (by rw [hlen2]; omega), hidx, List.getElem?_map]

/-- C10 witness: one input edge (0, 1) with attribute row [7], width 1, two
real nodes (batch [0, 0]): the augmented attribute matrix has 2·(1+2) = 6
rows and the row at position E + 0 = 1 (the first virtual-token edge) is the
zero row of width 1. -/
theorem spec_c10_witness :
    (augAttr [[(7 : ℚ)]] 1 (2 : ℕ)).length = 2 * (1 + 2)
      ∧ (augAttr [[(7 : ℚ)]] 1 2)[1 + 0]? = some (List.replicate 1 0) := by
  have h := spec_c10 2 [(0, 1)] [[(7 : ℚ)]] 1 [0, 0] rfl
  exact ⟨h.1, h.2.2.1 0 (by decide)⟩

/-- C7 (amended): when all labels are equal, the normalization does NOT
raise: numpy evaluates 0/0 elementwise to NaN (with only a warning), so
every normalized label is NaN, and all requested pairs are still built —
each carrying the target NaN - NaN = NaN — instead of failing fast with a
DegenerateLabelRange error before pair construction. -/
theorem spec_c7 (graphs : List Graph) (labels : List ℚ) (draws : List (ℕ × ℕ))
    (cst : ℚ) (W : ℕ)
    (hne : labels ≠ []) (hall : ∀ l ∈ labels, l = cst)
    (hlen : labels.length = graphs.length)
    (hg : ∀ g ∈ graphs, g.x ≠ []) (hw : ∀ g ∈ graphs, g.f_edge = W)
    (hdraws : ∀ p ∈ draws, p.1 < graphs.length ∧ p.2 < graphs.length) :
    normLabels labels = List.replicate labels.length FVal.nan
    ∧ ∃ out, build_label_diff_dataset graphs labels draws = .ok out
        ∧ out.length = draws.length
        ∧ ∀ d ∈ out, d.y = some FVal.nan := by
  have hnl := normLabels_all_nan labels cst hne hall
  refine ⟨hnl, ?_⟩
  obtain ⟨out, hout, holen, hoy⟩ :=
    build_pairs_ok graphs (normLabels labels) W hg hw draws hdraws
  refine ⟨out, hout, holen, ?_⟩
  intro d hd
  obtain ⟨m, hm⟩ := List.mem_iff_getElem?.1 hd
  have hmlt : m < draws.length := by
    by_contra hge
    rw [List.getElem?_eq_none (by omega)] at hm
    cases hm
  have hy := hoy m hmlt
  rw [hm] at hy
  simp only [Option.map_some'] at hy
  have hrep : ∀ i : ℕ, (List.replicate labels.length FVal.nan).getD i FVal.nan
      = FVal.nan := by
    intro i
    rw [List.getD_eq_getElem?_getD, List.getElem?_replicate]
    split <;> rfl
  rw [hnl, hrep, hrep] at hy
  have hd2 : d.y = some (fsub FVal.nan FVal.nan) := Option.some.inj hy
  rw [hd2]
  rfl

/-- C7 witness: two one-node graphs, labels both 7, one draw — the dataset
build succeeds and produces one pair (rather than zero pairs and an error). -/
theorem spec_c7_witness :
    (build_label_diff_dataset [⟨[[1]], [], [], 1⟩, ⟨[[1]], [], [], 1⟩] [7, 7]
        [(0, 1)]).toOption.map List.length = some 1 := by
  obtain ⟨-, out, hout, holen, -⟩ :=
    spec_c7 [⟨[[1]], [], [], 1⟩, ⟨[[1]], [], [], 1⟩] [7, 7] [(0, 1)] 7 1
      (by simp) (by simp) rfl (by simp) (by simp) (by decide)
  rw [hout]
  simp [Except.toOption, holen]

/-- C7 counterexample: with labels all 7.0, the claim demands a
DegenerateLabelRange failure with zero pairs built, but the code returns a
one-element dataset whose stored target is NaN. -/
theorem spec_c7_counterexample :
    build_label_diff_dataset [⟨[[2]], [], [], 1⟩, ⟨[[2]], [], [], 1⟩] [7, 7] [(0, 1)]
      = .ok [{ x := [[2], [2]], edge_index := [(0, 1), (1, 0)],
               edge_attr := [[0], [0]], batch := [0, 0], y := some FVal.nan }] := by
  have hnl := normLabels_all_nan [7, 7] 7 (by simp) (by simp)
  show build_pairs _ (normLabels [7, 7]) _ = _
  rw [hnl]
  rfl

/-- C8 (amended): for every list of NON-EMPTY graphs sharing one
edge-feature width, aligned labels (len(graphs) = len(labels) ≥ 2), and k
random draws (each a pair of distinct in-range indices, as random.sample
guarantees), `build_label_diff_dataset` returns exactly k joint graphs, and
the m-th stored target is norm_labels[i] - norm_labels[j] for the two
distinct indices (i, j) of the m-th draw. -/
theorem spec_c8 (graphs : List Graph) (labels : List ℚ) (draws : List (ℕ × ℕ)) (W : ℕ)
    (hlen2 : 2 ≤ graphs.length) (hlen : labels.length = graphs.length)
    (hg : ∀ g ∈ graphs, g.x ≠ []) (hw : ∀ g ∈ graphs, g.f_edge = W)
    (hdraws : ∀ p ∈ draws, p.1 ≠ p.2 ∧ p.1 < graphs.length ∧ p.2 < graphs.length) :
    ∃ out, build_label_diff_dataset graphs labels draws = .ok out
      ∧ out.length = draws.length
      ∧ ∀ m, m < draws.length →
          (out[m]?).map Data.y
              = some (some (fsub ((normLabels labels).getD (draws.getD m (0, 0)).1 .nan)
                  ((normLabels labels).getD (draws.getD m (0, 0)).2 .nan)))
            ∧ (draws.getD m (0, 0)).1 ≠ (draws.getD m (0, 0)).2 := by
  obtain ⟨out, hout, holen, hoy⟩ :=
    build_pairs_ok graphs (normLabels labels) W hg hw draws
      (fun p hp => (hdraws p hp).2)
  refine ⟨out, hout, holen, ?_⟩
  intro m hm
  exact ⟨hoy m hm, (hdraws _ (getD_mem draws m (0, 0) hm)).1⟩

/-- C8 witness: two one-node graphs, labels [1, 3], one draw (1, 0): exactly
one joint graph is produced. -/
theorem spec_c8_witness :
    (build_label_diff_dataset [⟨[[1]], [], [], 1⟩, ⟨[[2]], [], [], 1⟩] [1, 3]
        [(1, 0)]).toOption.map List.length = some 1 := by
  obtain ⟨out, hout, holen, -⟩ :=
    spec_c8 [⟨[[1]], [], [], 1⟩, ⟨[[2]], [], [], 1⟩] [1, 3] [(1, 0)] 1
      (by simp) rfl (by simp) (by simp) (by decide)
  rw [hout]
  simp [Except.toOption, holen]

/-- C8 counterexample: the claim quantifies over EVERY graphs list of length
at least 2, but with an empty first graph the inner `build_joint_graph`
raises, so the dataset build propagates the exception and returns no
sequence at all (let alone one of length k = 1). -/
theorem spec_c8_counterexample :
    build_label_diff_dataset [⟨[], [], [], 1⟩, ⟨[[1]], [], [], 1⟩] [0, 1] [(0, 1)]
        = .error .indexError
      ∧ 2 ≤ ([⟨[], [], [], 1⟩, ⟨[[1]], [], [], 1⟩] : List Graph).length :=
  ⟨rfl, by simp⟩

/-- C9: when max_label differs from min_label, the normalization
label' = 2·(label - min)/(max - min) - 1 maps min to -1 and max to 1 and is
strictly monotonically increasing; concretely, labels [1, 3, 5] normalize to
[-1, 0, 1] and the pair (i = 2, j = 0) yields label_diff = 1 - (-1) = 2. -/
theorem spec_c9 (labels : List ℚ) (hne : labels ≠ [])
    (hd : listMax labels ≠ listMin labels) :
    normLabel (listMin labels) (listMax labels) (listMin labels) = .val (-1)
    ∧ normLabel (listMin labels) (listMax labels) (listMax labels) = .val 1
    ∧ (∀ a b : ℚ, a < b →
        ∃ qa qb : ℚ, normLabel (listMin labels) (listMax labels) a = .val qa
          ∧ normLabel (listMin labels) (listMax labels) b = .val qb ∧ qa < qb)
    ∧ normLabels [1, 3, 5] = [.val (-1), .val 0, .val 1]
    ∧ fsub ((normLabels [1, 3, 5]).getD 2 .nan) ((normLabels [1, 3, 5]).getD 0 .nan)
        = .val 2 := by
  have hlt : listMin labels < listMax labels :=
    lt_of_le_of_ne (listMin_le_listMax labels hne) (fun h => hd h.symm)
  have hdenom : listMax labels - listMin labels ≠ 0 := sub_ne_zero_of_ne hd
  have hmin : listMin [1, 3, 5] = (1 : ℚ) := by
    norm_num [listMin, List.foldl_cons, List.foldl_nil, min_def]
  have hmax : listMax [1, 3, 5] = (5 : ℚ) := by
    norm_num [listMax, List.foldl_cons, List.foldl_nil, max_def]
  have hconc : normLabels [1, 3, 5] = [.val (-1), .val 0, .val 1] := by
    unfold normLabels
    rw [hmin, hmax]
    norm_num [normLabel]
  refine ⟨?_, ?_, ?_, hconc, ?_⟩
  · unfold normLabel
    rw [if_neg hdenom]
    congr 1
    rw [sub_self, mul_zero, zero_div]
    ring
  · unfold normLabel
    rw [if_neg hdenom]
    congr 1
    rw [mul_div_assoc, div_self hdenom]
    ring
  · intro a b hab
    refine ⟨2 * (a - listMin labels) / (listMax labels - listMin labels) - 1,
      2 * (b - listMin labels) / (listMax labels - listMin labels) - 1, ?_, ?_, ?_⟩
    · unfold normLabel
      rw [if_neg hdenom]
    · unfold normLabel
      rw [if_neg hdenom]
    · have hpos : 0 < listMax labels - listMin labels := sub_pos.2 hlt
      have h2 : 2 * (a - listMin labels) < 2 * (b - listMin labels) := by linarith
      have h3 := (div_lt_div_iff_of_pos_right hpos).2 h2
      linarith
  · rw [hconc]
    show FVal.val (1 - (-1)) = FVal.val 2
    norm_num

/-- C9 witness: applied to the label population [1, 3, 5], the minimum label
1 normalizes to -1. -/
theorem spec_c9_witness :
    normLabel (listMin [1, 3, 5]) (listMax [1, 3, 5]) (listMin [1, 3, 5]) = .val (-1) :=
  (spec_c9 [1, 3, 5] (by simp)
    (by norm_num [listMin, listMax, List.foldl_cons, List.foldl_nil, min_def, max_def])).1
